import Mathlib

/-!
Verification development for the qtl2scan numerical engine.

The repository ships its host-language binding layer (`src/src/RcppExports.cpp`),
which fixes the exported operations and their argument passing modes.  The bodies
of the numerical routines are not part of the repository snapshot, so each
operation is modelled here from the specification: vectors are `Fin n → ℚ`,
matrices are lists of column vectors, floating-point numbers are idealised as
exact rationals, and the host RNG is an explicitly passed stream of naturals.
-/

open Matrix

/-- A real vector over individuals, idealised with exact rational entries. -/
abbrev V (n : ℕ) : Type := Fin n → ℚ

/-- Elementwise product of a column with an interaction-covariate column. -/
def colMul {n : ℕ} (pcol c : V n) : V n := fun i => pcol i * c i

/-- Projection coefficient of `v` onto `q` (zero when `q` is the zero vector). -/
def projCoeff {n : ℕ} (q v : V n) : ℚ :=
  if q ⬝ᵥ q = 0 then 0 else (q ⬝ᵥ v) / (q ⬝ᵥ q)

/-- Classical Gram-Schmidt step: subtract from `v` its projection onto each
vector of `qs`. -/
def orthoAgainst {n : ℕ} (qs : List (V n)) (v : V n) : V n :=
  v - (qs.map fun q => projCoeff q v • q).sum

/-- Modelled from the spec (§4.1, QR-with-tolerance path of `fit_linreg_eigenqr`;
the compiled `linreg` sources are absent from the snapshot): tolerance-based
rank-revealing orthogonalisation.  Columns are processed in order; a column whose
orthogonalised squared norm (the squared pivot) is at most the threshold `th` is
dropped (`none`), otherwise its orthogonalised form is retained (`some q`). -/
def gsoAux {n : ℕ} (th : ℚ) (acc : List (V n)) : List (V n) → List (Option (V n))
  | [] => []
  | v :: vs =>
    let q := orthoAgainst acc v
    if q ⬝ᵥ q ≤ th then none :: gsoAux th acc vs
    else some q :: gsoAux th (acc ++ [q]) vs

/-- Rank-revealing orthogonalisation of a column list, starting from an empty
retained basis. -/
def gso {n : ℕ} (th : ℚ) (cols : List (V n)) : List (Option (V n)) :=
  gsoAux th [] cols

/-- Largest squared column norm, the reference value for the relative
tolerance test. -/
def maxSqNorm {n : ℕ} (cols : List (V n)) : ℚ :=
  (cols.map fun v => v ⬝ᵥ v).foldr max 0

/-- Squared pivot threshold corresponding to a relative tolerance `tol`:
a squared pivot is compared against `tol² ·` (largest squared column norm). -/
def gsThresh {n : ℕ} (tol : ℚ) (cols : List (V n)) : ℚ :=
  tol * tol * maxSqNorm cols

/-- The retained orthogonal basis of the column space at tolerance `tol`. -/
def gsRetained {n : ℕ} (tol : ℚ) (cols : List (V n)) : List (V n) :=
  (gso (gsThresh tol cols) cols).reduceOption

/-- Modelled from the spec (§4.1 `rss`): residual sum of squares of `y` on the
column list, computed from the orthogonalised basis without materialising
coefficients. -/
def calc_rss_cols {n : ℕ} (cols : List (V n)) (y : V n) (tol : ℚ) : ℚ :=
  let r := orthoAgainst (gsRetained tol cols) y
  r ⬝ᵥ r

/-- Back substitution through the implicit unit-triangular Gram-Schmidt system.
Processing columns from the last to the first, a retained column receives the
projection coefficient of the not-yet-explained part of `y` on its pivot, and a
dropped column receives coefficient `0`.  Returns the coefficient list together
with the fitted combination of the processed suffix. -/
def backsubAux {n : ℕ} (y : V n) : List (V n × Option (V n)) → List ℚ × V n
  | [] => ([], 0)
  | (v, oq) :: rest =>
    let pr := backsubAux y rest
    match oq with
    | none => (0 :: pr.1, pr.2)
    | some q =>
      let b := projCoeff q (y - pr.2)
      (b :: pr.1, b • v + pr.2)

/-- Coefficients of the QR-with-tolerance least-squares fit. -/
def qrCoefList {n : ℕ} (cols : List (V n)) (y : V n) (tol : ℚ) : List ℚ :=
  (backsubAux y (cols.zip (gso (gsThresh tol cols) cols))).1

/-- Linear combination of columns with a coefficient list. -/
def combo {n : ℕ} (cols : List (V n)) (bs : List ℚ) : V n :=
  (List.zipWith (fun b v => b • v) bs cols).sum

/-- Residual sum of squares of `y` against the fit with coefficients `bs`. -/
def rssOf {n : ℕ} (cols : List (V n)) (bs : List ℚ) (y : V n) : ℚ :=
  (y - combo cols bs) ⬝ᵥ (y - combo cols bs)

/-- Modelled from the spec (§4.1 `solve`, QR path; the compiled `linreg` sources
are absent from the snapshot): least-squares fit of `y` on the columns with
tolerance-based rank handling, returning the coefficient list and the residual
sum of squares. -/
def fit_linreg_eigenqr {n : ℕ} (cols : List (V n)) (y : V n) (tol : ℚ) :
    List ℚ × ℚ :=
  let bs := qrCoefList cols y tol
  (bs, rssOf cols bs y)

/-- Modelled from the spec (§4.1 `rss`): RSS-only entry point of the QR path. -/
def calc_rss_eigenqr {n : ℕ} (cols : List (V n)) (y : V n) (tol : ℚ) : ℚ :=
  calc_rss_cols cols y tol

/-- Gram matrix `X'X` of a column list. -/
def gram {n : ℕ} (cols : List (V n)) :
    Matrix (Fin cols.length) (Fin cols.length) ℚ :=
  fun i j => cols.get i ⬝ᵥ cols.get j

/-- The right-hand side `X'y` of the normal equations. -/
def xty {n : ℕ} (cols : List (V n)) (y : V n) : Fin cols.length → ℚ :=
  fun i => cols.get i ⬝ᵥ y

/-- Modelled from the spec (§4.1 `solve`, Cholesky-normal-equations path): the
solution of `X'X b = X'y`, written with the exact-arithmetic inverse
`(det)⁻¹ · adjugate`; on a rank-deficient `X` (`det = 0`) the division by zero
yields the garbage value `0`, matching the documented undefined behaviour. -/
def cholCoefFun {n : ℕ} (cols : List (V n)) (y : V n) : Fin cols.length → ℚ :=
  (1 / (gram cols).det) • ((gram cols).adjugate *ᵥ xty cols y)

/-- Modelled from the spec (§4.1 `solve`, Cholesky path of
`fit_linreg_eigenchol`): full-rank least-squares fit through the normal
equations, returning the coefficient list and the residual sum of squares. -/
def fit_linreg_eigenchol {n : ℕ} (cols : List (V n)) (y : V n) : List ℚ × ℚ :=
  let bs := (List.finRange cols.length).map (cholCoefFun cols y)
  (bs, rssOf cols bs y)

/-- Genotype probabilities for one chromosome:
positions × genotype-categories × individuals. -/
abbrev Genoprobs (n : ℕ) : Type := List (List (V n))

/-- Modelled from the spec (§4.4, §6 `form_interaction_design`): the per-position
interaction-expanded design matrix — genotype-probability columns, then additive
covariates, then, for every interaction column, every genotype-probability
column multiplied elementwise by it. -/
def formX_intcovar {n : ℕ} (probs : Genoprobs n) (addcovar intcovar : List (V n))
    (position : ℕ) : List (V n) :=
  let g := probs.getD position []
  g ++ addcovar ++ intcovar.flatMap fun c => g.map fun pcol => colMul pcol c

/-- Modelled from the spec (§6 `expand_genoprobs_intcovar`): the whole-array
interaction expansion, applied at every position at once. -/
def expand_genoprobs_intcovar {n : ℕ} (probs : Genoprobs n)
    (intcovar : List (V n)) : Genoprobs n :=
  probs.map fun g => g ++ intcovar.flatMap fun c => g.map fun pcol => colMul pcol c

/-- Modelled from the spec (§4.4, no-covariate variant): per-position RSS of each
phenotype column on the genotype-probability columns alone. -/
def scan_hk_onechr_nocovar {n : ℕ} (genoprobs : Genoprobs n) (pheno : List (V n))
    (tol : ℚ) : List (List ℚ) :=
  genoprobs.map fun g => pheno.map fun y => calc_rss_cols g y tol

/-- Modelled from the spec (§4.4, additive variant): per-position RSS of each
phenotype column on the genotype-probability columns concatenated with the
additive covariates. -/
def scan_hk_onechr {n : ℕ} (genoprobs : Genoprobs n) (pheno addcovar : List (V n))
    (tol : ℚ) : List (List ℚ) :=
  genoprobs.map fun g => pheno.map fun y => calc_rss_cols (g ++ addcovar) y tol

/-- Modelled from the spec (§4.4 and design note §9: the high-memory and
low-memory interaction variants are one algorithm differing only in memory
strategy): the high-memory variant first materialises the interaction-expanded
design of every position, then computes the per-position RSS matrix. -/
def scan_hk_onechr_intcovar_highmem {n : ℕ} (genoprobs : Genoprobs n)
    (pheno addcovar intcovar : List (V n)) (tol : ℚ) : List (List ℚ) :=
  let designs := (List.range genoprobs.length).map
    (formX_intcovar genoprobs addcovar intcovar)
  designs.map fun X => pheno.map fun y => calc_rss_cols X y tol

/-- Modelled from the spec (§4.4 and design note §9): the low-memory variant
rebuilds the interaction-expanded design of one position at a time, keeping no
per-position designs resident. -/
def scan_hk_onechr_intcovar_lowmem {n : ℕ} (genoprobs : Genoprobs n)
    (pheno addcovar intcovar : List (V n)) (tol : ℚ) : List (List ℚ) :=
  (List.range genoprobs.length).map fun p =>
    pheno.map fun y =>
      calc_rss_cols (formX_intcovar genoprobs addcovar intcovar p) y tol

/-- Passing mode of one argument of an exported operation, transcribed from
`src/src/RcppExports.cpp`. -/
inductive RcppArgKind : Type
  /-- an array (matrix/vector) argument taken by const reference -/
  | arrayConstRef : RcppArgKind
  /-- an array argument taken by const value -/
  | arrayConstVal : RcppArgKind
  /-- an array argument taken by mutable reference -/
  | arrayMutRef : RcppArgKind
  /-- a scalar (`int`, `double`, `bool`) argument -/
  | scalar : RcppArgKind
deriving DecidableEq

/-- One declared argument of an exported operation. -/
structure RcppParam : Type where
  pname : String
  kind : RcppArgKind
deriving DecidableEq

/-- One exported operation of the engine with its argument list. -/
structure RcppSig : Type where
  fname : String
  args : List RcppParam
deriving DecidableEq

/-- The export table of `src/src/RcppExports.cpp`: every operation declared
there, with the declared passing mode of every argument. -/
def rcppExportTable : List RcppSig := [
  ⟨"interpolate_map", [⟨"oldpos", .arrayConstRef⟩, ⟨"oldmap", .arrayConstRef⟩,
    ⟨"newmap", .arrayConstRef⟩]⟩,
  ⟨"fit_linreg_eigenchol", [⟨"X", .arrayConstRef⟩, ⟨"y", .arrayConstRef⟩]⟩,
  ⟨"calc_rss_eigenchol", [⟨"X", .arrayConstRef⟩, ⟨"y", .arrayConstRef⟩]⟩,
  ⟨"fit_linreg_eigenqr", [⟨"X", .arrayConstRef⟩, ⟨"y", .arrayConstRef⟩,
    ⟨"tol", .scalar⟩]⟩,
  ⟨"calc_rss_eigenqr", [⟨"X", .arrayConstRef⟩, ⟨"y", .arrayConstRef⟩,
    ⟨"tol", .scalar⟩]⟩,
  ⟨"calc_mvrss_eigenchol", [⟨"X", .arrayConstRef⟩, ⟨"Y", .arrayConstRef⟩]⟩,
  ⟨"calc_mvrss_eigenqr", [⟨"X", .arrayConstRef⟩, ⟨"Y", .arrayConstRef⟩,
    ⟨"tol", .scalar⟩]⟩,
  ⟨"calc_resid_eigenchol", [⟨"X", .arrayConstRef⟩, ⟨"Y", .arrayConstRef⟩]⟩,
  ⟨"calc_resid_eigenqr", [⟨"X", .arrayConstRef⟩, ⟨"Y", .arrayConstRef⟩,
    ⟨"tol", .scalar⟩]⟩,
  ⟨"calc_rss_linreg", [⟨"X", .arrayConstRef⟩, ⟨"Y", .arrayConstRef⟩,
    ⟨"tol", .scalar⟩]⟩,
  ⟨"calc_resid_linreg", [⟨"X", .arrayConstRef⟩, ⟨"Y", .arrayConstRef⟩,
    ⟨"tol", .scalar⟩]⟩,
  ⟨"calc_resid_linreg_3d", [⟨"X", .arrayConstRef⟩, ⟨"P", .arrayConstRef⟩,
    ⟨"tol", .scalar⟩]⟩,
  ⟨"Rcpp_eigen_decomp", [⟨"A", .arrayConstRef⟩]⟩,
  ⟨"Rcpp_eigen_rotation", [⟨"K", .arrayConstRef⟩, ⟨"y", .arrayConstRef⟩,
    ⟨"X", .arrayConstRef⟩]⟩,
  ⟨"Rcpp_calc_logdetXpX", [⟨"X", .arrayConstRef⟩]⟩,
  ⟨"Rcpp_calcLL", [⟨"hsq", .scalar⟩, ⟨"Kva", .arrayConstRef⟩,
    ⟨"y", .arrayConstRef⟩, ⟨"X", .arrayConstRef⟩, ⟨"reml", .scalar⟩,
    ⟨"logdetXpX", .scalar⟩]⟩,
  ⟨"Rcpp_fitLMM", [⟨"Kva", .arrayConstRef⟩, ⟨"y", .arrayConstRef⟩,
    ⟨"X", .arrayConstRef⟩, ⟨"reml", .scalar⟩, ⟨"check_boundary", .scalar⟩,
    ⟨"logdetXpX", .scalar⟩, ⟨"tol", .scalar⟩]⟩,
  ⟨"Rcpp_fitLMM_mat", [⟨"Kva", .arrayConstRef⟩, ⟨"Y", .arrayConstRef⟩,
    ⟨"X", .arrayConstRef⟩, ⟨"reml", .scalar⟩, ⟨"check_boundary", .scalar⟩,
    ⟨"logdetXpX", .scalar⟩, ⟨"tol", .scalar⟩]⟩,
  ⟨"find_matching_cols", [⟨"mat", .arrayConstRef⟩, ⟨"tol", .scalar⟩]⟩,
  ⟨"find_lin_indep_cols", [⟨"mat", .arrayConstRef⟩, ⟨"tol", .scalar⟩]⟩,
  ⟨"formX_intcovar", [⟨"probs", .arrayConstRef⟩, ⟨"addcovar", .arrayConstRef⟩,
    ⟨"intcovar", .arrayConstRef⟩, ⟨"position", .scalar⟩]⟩,
  ⟨"expand_genoprobs_intcovar", [⟨"probs", .arrayConstRef⟩,
    ⟨"intcovar", .arrayConstRef⟩]⟩,
  ⟨"weighted_matrix", [⟨"mat", .arrayConstRef⟩, ⟨"weights", .arrayConstRef⟩]⟩,
  ⟨"weighted_3darray", [⟨"array", .arrayConstRef⟩, ⟨"weights", .arrayConstRef⟩]⟩,
  ⟨"matrix_x_matrix", [⟨"X", .arrayConstRef⟩, ⟨"Y", .arrayConstRef⟩]⟩,
  ⟨"matrix_x_vector", [⟨"X", .arrayConstRef⟩, ⟨"y", .arrayConstRef⟩]⟩,
  ⟨"matrix_x_3darray", [⟨"X", .arrayConstRef⟩, ⟨"A", .arrayMutRef⟩]⟩,
  ⟨"random_int", [⟨"n", .scalar⟩, ⟨"low", .scalar⟩, ⟨"high", .scalar⟩]⟩,
  ⟨"get_permutation", [⟨"n", .scalar⟩]⟩,
  ⟨"permute_nvector", [⟨"n_perm", .scalar⟩, ⟨"x", .arrayConstVal⟩]⟩,
  ⟨"permute_ivector", [⟨"n_perm", .scalar⟩, ⟨"x", .arrayConstVal⟩]⟩,
  ⟨"permute_nvector_stratified", [⟨"n_perm", .scalar⟩, ⟨"x", .arrayConstRef⟩,
    ⟨"strata", .arrayConstRef⟩, ⟨"n_strata", .scalar⟩]⟩,
  ⟨"permute_ivector_stratified", [⟨"n_perm", .scalar⟩, ⟨"x", .arrayConstRef⟩,
    ⟨"strata", .arrayConstRef⟩, ⟨"n_strata", .scalar⟩]⟩,
  ⟨"scan_hk_onechr_nocovar", [⟨"genoprobs", .arrayConstRef⟩,
    ⟨"pheno", .arrayConstRef⟩, ⟨"tol", .scalar⟩]⟩,
  ⟨"scan_hk_onechr", [⟨"genoprobs", .arrayConstRef⟩, ⟨"pheno", .arrayConstRef⟩,
    ⟨"addcovar", .arrayConstRef⟩, ⟨"tol", .scalar⟩]⟩,
  ⟨"scan_hk_onechr_weighted", [⟨"genoprobs", .arrayConstRef⟩,
    ⟨"pheno", .arrayConstRef⟩, ⟨"addcovar", .arrayConstRef⟩,
    ⟨"weights", .arrayConstRef⟩, ⟨"tol", .scalar⟩]⟩,
  ⟨"scan_hk_onechr_intcovar_highmem", [⟨"genoprobs", .arrayConstRef⟩,
    ⟨"pheno", .arrayConstRef⟩, ⟨"addcovar", .arrayConstRef⟩,
    ⟨"intcovar", .arrayConstRef⟩, ⟨"tol", .scalar⟩]⟩,
  ⟨"scan_hk_onechr_intcovar_weighted_highmem", [⟨"genoprobs", .arrayConstRef⟩,
    ⟨"pheno", .arrayConstRef⟩, ⟨"addcovar", .arrayConstRef⟩,
    ⟨"intcovar", .arrayConstRef⟩, ⟨"weights", .arrayConstRef⟩,
    ⟨"tol", .scalar⟩]⟩,
  ⟨"scan_hk_onechr_intcovar_lowmem", [⟨"genoprobs", .arrayConstRef⟩,
    ⟨"pheno", .arrayConstRef⟩, ⟨"addcovar", .arrayConstRef⟩,
    ⟨"intcovar", .arrayConstRef⟩, ⟨"tol", .scalar⟩]⟩,
  ⟨"scan_hk_onechr_intcovar_weighted_lowmem", [⟨"genoprobs", .arrayConstRef⟩,
    ⟨"pheno", .arrayConstRef⟩, ⟨"addcovar", .arrayConstRef⟩,
    ⟨"intcovar", .arrayConstRef⟩, ⟨"weights", .arrayConstRef⟩,
    ⟨"tol", .scalar⟩]⟩,
  ⟨"scan_lmm_onechr", [⟨"genoprobs", .arrayConstRef⟩, ⟨"pheno", .arrayConstRef⟩,
    ⟨"addcovar", .arrayConstRef⟩, ⟨"eigenvec", .arrayConstRef⟩,
    ⟨"weights", .arrayConstRef⟩, ⟨"tol", .scalar⟩]⟩,
  ⟨"scan_lmm_onechr_intcovar_highmem", [⟨"genoprobs", .arrayConstRef⟩,
    ⟨"pheno", .arrayConstRef⟩, ⟨"addcovar", .arrayConstRef⟩,
    ⟨"intcovar", .arrayConstRef⟩, ⟨"eigenvec", .arrayConstRef⟩,
    ⟨"weights", .arrayConstRef⟩, ⟨"tol", .scalar⟩]⟩,
  ⟨"scan_lmm_onechr_intcovar_lowmem", [⟨"genoprobs", .arrayConstRef⟩,
    ⟨"pheno", .arrayConstRef⟩, ⟨"addcovar", .arrayConstRef⟩,
    ⟨"intcovar", .arrayConstRef⟩, ⟨"eigenvec", .arrayConstRef⟩,
    ⟨"weights", .arrayConstRef⟩, ⟨"tol", .scalar⟩]⟩]

/-- An argument is read-only unless it is an array passed by mutable
reference. -/
def argReadOnly : RcppArgKind → Bool
  | .arrayMutRef => false
  | _ => true

/-- An exported operation is frame-preserving when every argument is
read-only. -/
def sigAllReadOnly (s : RcppSig) : Bool :=
  s.args.all fun a => argReadOnly a.kind

/-- Modelled from the spec (§4.5 and design note §9: the engine consumes an
externally supplied uniform random source, abstracted as an explicit stream of
naturals): Fisher-Yates-style shuffle with an explicit fuel argument equal to
the list length; at step `t` the element at random index
`rand t % length` is picked and removed. -/
def shuffleAux {α : Type} [DecidableEq α] (rand : ℕ → ℕ) :
    ℕ → ℕ → List α → List α
  | 0, _, _ => []
  | _ + 1, _, [] => []
  | fuel + 1, t, a :: as =>
    (a :: as).getD (rand t % (a :: as).length) a ::
      shuffleAux rand fuel (t + 1)
        ((a :: as).erase ((a :: as).getD (rand t % (a :: as).length) a))

/-- One uniform shuffle of a value list driven by the random stream. -/
def shuffleList {α : Type} [DecidableEq α] (rand : ℕ → ℕ) (t : ℕ)
    (l : List α) : List α :=
  shuffleAux rand l.length t l

/-- Modelled from the spec (§4.5 `uniform_permutation` of `get_permutation`):
a uniform permutation of `{0..n-1}` driven by the external random stream. -/
def get_permutation (rand : ℕ → ℕ) (n : ℕ) : List ℕ :=
  shuffleList rand 0 (List.range n)

/-- The positions carrying stratum label `s`. -/
def stratumPositions (strata : List ℕ) (s : ℕ) : List ℕ :=
  (List.range strata.length).filter fun i => strata.getD i 0 == s

/-- Modelled from the spec (§4.5 `stratified_permutation`): within each
stratum, independently apply a fresh uniform permutation — drawn from a
stratum-specific substream of the random source — to the subset of `x`
carrying that stratum label; entries never leave their stratum. -/
def stratifiedShuffle {α : Type} [DecidableEq α] (rand : ℕ → ℕ) (x : List α)
    (d : α) (strata : List ℕ) : List α :=
  (List.range x.length).map fun i =>
    let s := strata.getD i 0
    let ps := stratumPositions strata s
    let shuffled := shuffleList (fun k => rand (Nat.pair s k)) 0
      (ps.map fun j => x.getD j d)
    shuffled.getD (ps.indexOf i) d

/-- Modelled from the spec (§4.5 of `permute_nvector_stratified`): `n_perm`
independent stratified permutation draws of a numeric vector, one column per
draw. -/
def permute_nvector_stratified (rand : ℕ → ℕ) (n_perm : ℕ) (x : List ℚ)
    (strata : List ℕ) (n_strata : ℕ) : List (List ℚ) :=
  (List.range n_perm).map fun j =>
    stratifiedShuffle (fun k => rand (Nat.pair j k)) x 0 strata

/-- Modelled from the spec (§4.5 of `permute_ivector_stratified`): the integer
overload of the stratified permutation. -/
def permute_ivector_stratified (rand : ℕ → ℕ) (n_perm : ℕ) (x : List ℤ)
    (strata : List ℕ) (n_strata : ℕ) : List (List ℤ) :=
  (List.range n_perm).map fun j =>
    stratifiedShuffle (fun k => rand (Nat.pair j k)) x 0 strata

/-- Modelled from the spec (§4.3 `log_likelihood`): the variance of each
rotated coordinate at heritability `hsq` is `hsq·λ + (1 − hsq)`. -/
def lmmVariances (hsq : ℚ) (Kva : List ℚ) : List ℚ :=
  Kva.map fun lam => hsq * lam + (1 - hsq)

/-- Reciprocal variances, the generalised-least-squares weights. -/
def lmmWeights (hsq : ℚ) (Kva : List ℚ) : List ℚ :=
  (lmmVariances hsq Kva).map fun s => 1 / s

/-- Weighted dot product `Σ wᵢ aᵢ bᵢ` (truncating at the shortest list). -/
def wdot (w a b : List ℚ) : ℚ :=
  (List.zipWith (fun wi p => wi * p) w
    (List.zipWith (fun u v => u * v) a b)).sum

/-- Weighted Gram matrix `X' W X` over the columns of `X`. -/
def gramW (w : List ℚ) (X : List (List ℚ)) :
    Matrix (Fin X.length) (Fin X.length) ℚ :=
  fun i j => wdot w (X.get i) (X.get j)

/-- Generalised-least-squares coefficients through the weighted normal
equations, with the exact adjugate inverse (garbage on a singular weighted
Gram matrix, as in the Cholesky path). -/
def glsCoef (w : List ℚ) (X : List (List ℚ)) (y : List ℚ) :
    Fin X.length → ℚ :=
  (1 / (gramW w X).det) •
    ((gramW w X).adjugate *ᵥ fun i => wdot w (X.get i) y)

/-- Fitted values of the weighted fit at every observation index. -/
def glsFitted (w : List ℚ) (X : List (List ℚ)) (y : List ℚ) : List ℚ :=
  (List.range y.length).map fun i =>
    ∑ j, glsCoef w X y j * (X.get j).getD i 0

/-- Weighted residual sum of squares `Σ wᵢ (yᵢ − fittedᵢ)²`. -/
def weightedRSS (w : List ℚ) (X : List (List ℚ)) (y : List ℚ) : ℚ :=
  (List.zipWith (fun wi p => wi * p) w
    (List.zipWith (fun yi fi => (yi - fi) * (yi - fi)) y (glsFitted w X y))).sum

/-- Modelled from the spec (§4.3 `log_likelihood` of `Rcpp_calcLL`; the `lmm`
sources are absent from the snapshot): the mixed-model log likelihood at
heritability `hsq` on rotated data.  The logarithm is passed as an abstract
total function `L` (the exact-rational embedding has no transcendental `log`);
constant additive terms are dropped.  REML adds the `log|X'X|`-type
correction terms. -/
def Rcpp_calcLL (L : ℚ → ℚ) (hsq : ℚ) (Kva y : List ℚ) (X : List (List ℚ))
    (reml : Bool) (logdetXpX : ℚ) : ℚ :=
  let S := lmmVariances hsq Kva
  let w := lmmWeights hsq Kva
  let n : ℚ := (Kva.length : ℚ)
  let rss := weightedRSS w X y
  let ml := -(1 / 2) * ((S.map L).sum + n * L (rss / n))
  if reml then ml + (1 / 2) * logdetXpX - (1 / 2) * L ((gramW w X).det)
  else ml

/-- The well-definedness guard of the log-likelihood evaluation: every
variance is positive (its reciprocal does not divide by zero and its log
argument is positive), the sample size is positive, the weighted RSS is a
positive log argument, and under REML the weighted Gram determinant is a
positive log argument.  A float implementation produces `±∞`/`NaN` exactly
when this guard fails. -/
def calcLL_wellDefined (hsq : ℚ) (Kva y : List ℚ) (X : List (List ℚ))
    (reml : Bool) : Bool :=
  let S := lmmVariances hsq Kva
  let w := lmmWeights hsq Kva
  S.all (fun s => decide (0 < s)) && decide (0 < Kva.length) &&
    decide (0 < weightedRSS w X y) &&
    (!reml || decide (0 < (gramW w X).det))

/-- One fitted LMM result: heritability and log likelihood. -/
structure LMMFit : Type where
  hsq : ℚ
  ll : ℚ
deriving DecidableEq

/-- Failure modes of the LMM engine (spec §4.3 and §7). -/
inductive LMMError : Type
  | dimMismatch : LMMError
  | nonConvergence : LMMError
deriving DecidableEq

/-- Dimension guard: the eigenvalue count must match the row count of `y` and
of every column of `X` (spec §4.3 failure semantics). -/
def lmmDimsOK (Kva y : List ℚ) (X : List (List ℚ)) : Bool :=
  Kva.length == y.length && X.all fun c => c.length == Kva.length

/-- Modelled from the spec (§4.3/§9: any bounded derivative-free maximiser on
`[0,1]` to the precision implied by `tol`; the exact algorithm is an open
point of the spec): golden-section-style search that returns `none` — reports
non-convergence — when the iteration budget runs out before the bracket
shrinks to the tolerance. -/
def goldenSearch (f : ℚ → ℚ) (lo hi tol : ℚ) : ℕ → Option ℚ
  | 0 => none
  | fuel + 1 =>
    if hi - lo ≤ tol then some ((lo + hi) / 2)
    else
      let m1 := lo + (hi - lo) * 3 / 8
      let m2 := lo + (hi - lo) * 5 / 8
      if f m1 < f m2 then goldenSearch f m1 hi tol fuel
      else goldenSearch f lo m2 tol fuel

/-- Pick the candidate with the largest log likelihood (the earlier candidate
wins ties). -/
def pickBest (c : ℚ × ℚ) : List (ℚ × ℚ) → ℚ × ℚ :=
  List.foldl (fun a b => if a.2 < b.2 then b else a) c

/-- Modelled from the spec (§4.3 `fit` of `Rcpp_fitLMM`): maximise the log
likelihood over `hsq ∈ [0,1]`.  Fails on dimension mismatch; on search
non-convergence it fails, or — when `check_boundary` is set — degrades to the
best of the two boundary evaluations (spec §7); with `check_boundary` set the
boundary points `hsq = 0` and `hsq = 1` join the candidate set and the global
maximum is returned. -/
def Rcpp_fitLMM (L : ℚ → ℚ) (Kva y : List ℚ) (X : List (List ℚ))
    (reml check_boundary : Bool) (logdetXpX tol : ℚ) :
    Except LMMError LMMFit :=
  if lmmDimsOK Kva y X then
    match goldenSearch (fun h => Rcpp_calcLL L h Kva y X reml logdetXpX)
        0 1 tol 30 with
    | none =>
      if check_boundary then
        let best := pickBest (0, Rcpp_calcLL L 0 Kva y X reml logdetXpX)
          [(1, Rcpp_calcLL L 1 Kva y X reml logdetXpX)]
        .ok ⟨best.1, best.2⟩
      else .error .nonConvergence
    | some h =>
      let best := pickBest (h, Rcpp_calcLL L h Kva y X reml logdetXpX)
        (if check_boundary then
          [(0, Rcpp_calcLL L 0 Kva y X reml logdetXpX),
            (1, Rcpp_calcLL L 1 Kva y X reml logdetXpX)]
          else [])
      .ok ⟨best.1, best.2⟩
  else .error .dimMismatch

/-- Modelled from the spec (§4.3 `fit_multi` of `Rcpp_fitLMM_mat`): columnwise
independent fits behind the shared dimension guard. -/
def Rcpp_fitLMM_mat (L : ℚ → ℚ) (Kva : List ℚ) (Y X : List (List ℚ))
    (reml check_boundary : Bool) (logdetXpX tol : ℚ) :
    Except LMMError (List LMMFit) :=
  if Y.all (fun y => lmmDimsOK Kva y X) then
    Y.mapM fun y => Rcpp_fitLMM L Kva y X reml check_boundary logdetXpX tol
  else .error .dimMismatch

/-- C2: the high-memory and the low-memory interaction scans return the same
per-position statistic matrix on every genotype-probability array, phenotype
matrix, additive covariate matrix, interaction covariate matrix and
tolerance — the two variants differ only in memory strategy. -/
theorem scan_hk_intcovar_highmem_eq_lowmem {n : ℕ} (genoprobs : Genoprobs n)
    (pheno addcovar intcovar : List (V n)) (tol : ℚ) :
    scan_hk_onechr_intcovar_highmem genoprobs pheno addcovar intcovar tol =
      scan_hk_onechr_intcovar_lowmem genoprobs pheno addcovar intcovar tol := by
  unfold scan_hk_onechr_intcovar_highmem scan_hk_onechr_intcovar_lowmem
  rw [List.map_map]
  rfl

/-- C8: scanning with an empty (zero-column) additive covariate matrix gives the
same RSS-per-position matrix as the dedicated no-covariate scan. -/
theorem scan_hk_onechr_empty_addcovar {n : ℕ} (genoprobs : Genoprobs n)
    (pheno : List (V n)) (tol : ℚ) :
    scan_hk_onechr genoprobs pheno [] tol =
      scan_hk_onechr_nocovar genoprobs pheno tol := by
  unfold scan_hk_onechr scan_hk_onechr_nocovar
  simp [List.append_nil]

/-- C9: with `g` genotype categories and a single interaction covariate column,
the interaction-expanded design has exactly `g` columns beyond the additive
design, and each extra column is the elementwise product of one
genotype-probability column with the interaction covariate column; the
whole-array expansion `expand_genoprobs_intcovar` appends the same `g` product
columns at every position. -/
theorem formX_intcovar_single_column {n : ℕ} (probs : Genoprobs n)
    (addcovar : List (V n)) (c : V n) (position : ℕ) :
    (formX_intcovar probs addcovar [c] position).length =
        (probs.getD position []).length + addcovar.length +
          (probs.getD position []).length ∧
      (formX_intcovar probs addcovar [c] position).drop
          ((probs.getD position []).length + addcovar.length) =
        (probs.getD position []).map (fun pcol => colMul pcol c) ∧
      expand_genoprobs_intcovar probs [c] =
        probs.map fun g => g ++ g.map fun pcol => colMul pcol c := by
  refine ⟨?_, ?_, ?_⟩
  · simp [formX_intcovar]
    ring
  · have h : formX_intcovar probs addcovar [c] position =
        ((probs.getD position []) ++ addcovar) ++
          (probs.getD position []).map (fun pcol => colMul pcol c) := by
      simp [formX_intcovar]
    rw [h, ← List.length_append]
    exact List.drop_left _ _
  · simp [expand_genoprobs_intcovar]

/-- C10: in the export table transcribed from `src/src/RcppExports.cpp`,
`matrix_x_3darray` is the single exported operation with a mutably passed
array argument (its 3-D array `A`); every other exported operation takes all
of its matrix/vector/array arguments read-only. -/
theorem matrix_x_3darray_sole_mutable_export :
    (rcppExportTable.filter fun s => !sigAllReadOnly s).map RcppSig.fname =
        ["matrix_x_3darray"] ∧
      ((rcppExportTable.filter fun s => s.fname == "matrix_x_3darray").map
          fun s => (s.args.filter fun a => !argReadOnly a.kind).map
            RcppParam.pname) =
        [["A"]] := by
  constructor
  · rfl
  · rfl

/-- Dot product distributes over a list sum of vectors. -/
lemma dotProduct_list_sum {n : ℕ} (q : V n) (l : List (V n)) :
    q ⬝ᵥ l.sum = (l.map fun w => q ⬝ᵥ w).sum := by
  induction l with
  | nil => simp
  | cons w ws ih => simp [List.sum_cons, dotProduct_add, ih]

/-- A vector orthogonal to every member of `qs` has the same dot product with
`v` and with the Gram-Schmidt remainder of `v` against `qs`. -/
lemma dot_orthoAgainst_of_orth {n : ℕ} {qs : List (V n)} {w : V n}
    (h : ∀ s ∈ qs, w ⬝ᵥ s = 0) (v : V n) :
    w ⬝ᵥ orthoAgainst qs v = w ⬝ᵥ v := by
  unfold orthoAgainst
  rw [dotProduct_sub, dotProduct_list_sum]
  rw [List.sum_eq_zero, sub_zero]
  intro x hx
  rcases List.mem_map.mp hx with ⟨u, hu, rfl⟩
  rcases List.mem_map.mp hu with ⟨q, hq, rfl⟩
  rw [dotProduct_smul, h q hq, smul_zero]

/-- Unfolding of the Gram-Schmidt remainder on a cons. -/
lemma orthoAgainst_cons {n : ℕ} (r : V n) (rs : List (V n)) (v : V n) :
    orthoAgainst (r :: rs) v = orthoAgainst rs v - projCoeff r v • r := by
  unfold orthoAgainst
  rw [List.map_cons, List.sum_cons]
  abel

/-- The Gram-Schmidt remainder is orthogonal to every member of a pairwise
orthogonal list. -/
lemma dot_orthoAgainst {n : ℕ} {qs : List (V n)}
    (hpw : qs.Pairwise fun a b => a ⬝ᵥ b = 0) {q : V n} (hq : q ∈ qs)
    (v : V n) : q ⬝ᵥ orthoAgainst qs v = 0 := by
  induction qs with
  | nil => cases hq
  | cons r rs ih =>
    rw [List.pairwise_cons] at hpw
    rw [orthoAgainst_cons, dotProduct_sub, dotProduct_smul]
    rcases List.mem_cons.mp hq with rfl | hmem
    · rw [dot_orthoAgainst_of_orth hpw.1 v]
      by_cases hz : q ⬝ᵥ q = 0
      · have h0 : q = 0 := dotProduct_self_eq_zero.mp hz
        rw [h0]
        simp
      · rw [projCoeff, if_neg hz, smul_eq_mul, div_mul_cancel₀ _ hz, sub_self]
    · rw [ih hpw.2 hmem]
      have hrq : q ⬝ᵥ r = 0 := by
        rw [dotProduct_comm]
        exact hpw.1 q hmem
      rw [hrq, smul_zero, sub_self]

/-- The largest squared column norm is nonnegative. -/
lemma maxSqNorm_nonneg {n : ℕ} (cols : List (V n)) : 0 ≤ maxSqNorm cols := by
  unfold maxSqNorm
  induction cols with
  | nil => simp
  | cons c cs ih =>
    rw [List.map_cons, List.foldr_cons]
    exact le_trans ih (le_max_right _ _)

/-- The squared pivot threshold is nonnegative for every tolerance. -/
lemma gsThresh_nonneg {n : ℕ} (tol : ℚ) (cols : List (V n)) :
    0 ≤ gsThresh tol cols :=
  mul_nonneg (mul_self_nonneg tol) (maxSqNorm_nonneg cols)

/-- The orthogonalisation output has one entry per input column. -/
lemma gsoAux_length {n : ℕ} (th : ℚ) (vs acc : List (V n)) :
    (gsoAux th acc vs).length = vs.length := by
  induction vs generalizing acc with
  | nil => rfl
  | cons v vs ih =>
    unfold gsoAux
    by_cases h : orthoAgainst acc v ⬝ᵥ orthoAgainst acc v ≤ th <;>
      simp [h, ih]

/-- A list combination of vectors from a set lies in the span of the set. -/
lemma map_smul_sum_mem_span {n : ℕ} {s : Set (V n)} {l : List (V n)}
    (hl : ∀ a ∈ l, a ∈ s) (f : V n → ℚ) :
    (l.map fun a => f a • a).sum ∈ Submodule.span ℚ s := by
  induction l with
  | nil => simp
  | cons a as ih =>
    rw [List.map_cons, List.sum_cons]
    refine Submodule.add_mem _ ?_ (ih fun b hb => hl b (List.mem_cons_of_mem _ hb))
    exact Submodule.smul_mem _ _ (Submodule.subset_span (hl a (List.mem_cons_self a as)))

/-- A vector in the span of a set is orthogonal to any vector orthogonal to
every generator. -/
lemma dot_eq_zero_of_mem_span {n : ℕ} {s : Set (V n)} {v r : V n}
    (hv : v ∈ Submodule.span ℚ s) (hr : ∀ q ∈ s, q ⬝ᵥ r = 0) :
    v ⬝ᵥ r = 0 := by
  let φ : V n →ₗ[ℚ] ℚ :=
    { toFun := fun w => w ⬝ᵥ r
      map_add' := fun a b => add_dotProduct a b r
      map_smul' := fun c a => smul_dotProduct c a r }
  have hle : Submodule.span ℚ s ≤ LinearMap.ker φ := by
    rw [Submodule.span_le]
    intro q hq
    exact LinearMap.mem_ker.mpr (hr q hq)
  exact LinearMap.mem_ker.mp (hle hv)

/-- Unfolding of the tolerance-based orthogonalisation on a cons. -/
lemma gsoAux_cons {n : ℕ} (th : ℚ) (acc : List (V n)) (v : V n)
    (vs : List (V n)) :
    gsoAux th acc (v :: vs) =
      if orthoAgainst acc v ⬝ᵥ orthoAgainst acc v ≤ th
      then none :: gsoAux th acc vs
      else some (orthoAgainst acc v) :: gsoAux th (acc ++ [orthoAgainst acc v]) vs :=
  rfl

/-- Joint invariant of the tolerance-based orthogonalisation: starting from a
pairwise orthogonal accumulator whose pivots exceed the threshold, (1) the
accumulator extended by the newly retained pivots stays pairwise orthogonal,
(2) every retained pivot exceeds the threshold, (3) a retained column has dot
product with its own pivot equal to the pivot's squared norm and lies in the
span of the full pivot list, and (4) every later retained pivot is orthogonal
to every earlier retained column. -/
lemma gsoAux_invariant {n : ℕ} (th : ℚ) (vs : List (V n)) :
    ∀ acc : List (V n),
      acc.Pairwise (fun a b => a ⬝ᵥ b = 0) →
      (∀ q ∈ acc, th < q ⬝ᵥ q) →
      (acc ++ (gsoAux th acc vs).reduceOption).Pairwise
          (fun a b => a ⬝ᵥ b = 0) ∧
        (∀ oq ∈ gsoAux th acc vs, ∀ q, oq = some q → th < q ⬝ᵥ q) ∧
        (∀ pr ∈ vs.zip (gsoAux th acc vs), ∀ q, pr.2 = some q →
          q ⬝ᵥ pr.1 = q ⬝ᵥ q ∧
            pr.1 ∈ Submodule.span ℚ
              {x | x ∈ acc ++ (gsoAux th acc vs).reduceOption}) ∧
        (vs.zip (gsoAux th acc vs)).Pairwise
          (fun a b => ∀ qa qb, a.2 = some qa → b.2 = some qb →
            qb ⬝ᵥ a.1 = 0) := by
  induction vs with
  | nil =>
    intro acc hpw hth
    refine ⟨by simpa [gsoAux] using hpw, ?_, ?_, ?_⟩ <;> simp [gsoAux]
  | cons v vs ih =>
    intro acc hpw hth
    by_cases hdrop : orthoAgainst acc v ⬝ᵥ orthoAgainst acc v ≤ th
    · obtain ⟨ih1, ih2, ih3, ih4⟩ := ih acc hpw hth
      rw [gsoAux_cons, if_pos hdrop]
      refine ⟨by simpa using ih1, ?_, ?_, ?_⟩
      · intro oq hoq q hq
        rcases List.mem_cons.mp hoq with rfl | h
        · cases hq
        · exact ih2 oq h q hq
      · intro pr hpr q hq
        rw [List.zip_cons_cons] at hpr
        rcases List.mem_cons.mp hpr with rfl | h
        · cases hq
        · have h3 := ih3 pr h q hq
          refine ⟨h3.1, ?_⟩
          simpa using h3.2
      · rw [List.zip_cons_cons, List.pairwise_cons]
        refine ⟨?_, ih4⟩
        intro b hb qa qb hqa _
        cases hqa
    · have hq2 : th < orthoAgainst acc v ⬝ᵥ orthoAgainst acc v :=
        lt_of_not_le hdrop
      have haccq : ∀ a ∈ acc, a ⬝ᵥ orthoAgainst acc v = 0 :=
        fun a ha => dot_orthoAgainst hpw ha v
      have hqacc : ∀ s ∈ acc, orthoAgainst acc v ⬝ᵥ s = 0 := by
        intro s hs
        rw [dotProduct_comm]
        exact haccq s hs
      have hpw' : (acc ++ [orthoAgainst acc v]).Pairwise
          (fun a b => a ⬝ᵥ b = 0) := by
        rw [List.pairwise_append]
        refine ⟨hpw, List.pairwise_singleton _ _, ?_⟩
        intro a ha b hb
        rw [List.mem_singleton] at hb
        subst hb
        exact haccq a ha
      have hth' : ∀ r ∈ acc ++ [orthoAgainst acc v], th < r ⬝ᵥ r := by
        intro r hr
        rcases List.mem_append.mp hr with h | h
        · exact hth r h
        · rw [List.mem_singleton] at h
          subst h
          exact hq2
      obtain ⟨ih1, ih2, ih3, ih4⟩ := ih (acc ++ [orthoAgainst acc v]) hpw' hth'
      rw [gsoAux_cons, if_neg hdrop]
      have hkey : acc ++ (some (orthoAgainst acc v) ::
            gsoAux th (acc ++ [orthoAgainst acc v]) vs).reduceOption =
          (acc ++ [orthoAgainst acc v]) ++
            (gsoAux th (acc ++ [orthoAgainst acc v]) vs).reduceOption := by
        rw [List.reduceOption_cons_of_some, List.append_cons]
      have hv : v = orthoAgainst acc v +
          (acc.map fun a => projCoeff a v • a).sum :=
        (sub_add_cancel v _).symm
      refine ⟨?_, ?_, ?_, ?_⟩
      · rw [hkey]
        exact ih1
      · intro oq hoq q hq
        rcases List.mem_cons.mp hoq with rfl | h
        · cases hq
          exact hq2
        · exact ih2 oq h q hq
      · intro pr hpr q hq
        rw [List.zip_cons_cons] at hpr
        rcases List.mem_cons.mp hpr with rfl | h
        · cases hq
          constructor
          · exact (dot_orthoAgainst_of_orth hqacc v).symm
          · rw [hkey]
            have hmem : orthoAgainst acc v +
                (acc.map fun a => projCoeff a v • a).sum ∈
                Submodule.span ℚ {x | x ∈ acc ++ [orthoAgainst acc v] ++
                  (gsoAux th (acc ++ [orthoAgainst acc v]) vs).reduceOption} := by
              refine Submodule.add_mem _ ?_ ?_
              · refine Submodule.subset_span ?_
                show orthoAgainst acc v ∈ acc ++ [orthoAgainst acc v] ++
                  (gsoAux th (acc ++ [orthoAgainst acc v]) vs).reduceOption
                rw [List.mem_append, List.mem_append]
                exact Or.inl (Or.inr (List.mem_singleton.mpr rfl))
              · refine map_smul_sum_mem_span ?_ _
                intro a ha
                show a ∈ acc ++ [orthoAgainst acc v] ++
                  (gsoAux th (acc ++ [orthoAgainst acc v]) vs).reduceOption
                rw [List.mem_append, List.mem_append]
                exact Or.inl (Or.inl ha)
            rw [← hv] at hmem
            exact hmem
        · have h3 := ih3 pr h q hq
          refine ⟨h3.1, ?_⟩
          rw [hkey]
          exact h3.2
      · rw [List.zip_cons_cons, List.pairwise_cons]
        refine ⟨?_, ih4⟩
        rintro ⟨b1, b2⟩ hb qa qb hqa hqb
        cases hqa
        have hb2 : qb ∈ (gsoAux th (acc ++ [orthoAgainst acc v]) vs).reduceOption :=
          List.reduceOption_mem_iff.mpr (by
            cases hqb
            exact (List.of_mem_zip hb).2)
        have hcross : ∀ x ∈ acc ++ [orthoAgainst acc v], x ⬝ᵥ qb = 0 := by
          have := (List.pairwise_append.mp ih1).2.2
          intro x hx
          exact this x hx qb hb2
        have hqbacc : ∀ s ∈ acc, qb ⬝ᵥ s = 0 := by
          intro s hs
          rw [dotProduct_comm]
          exact hcross s (List.mem_append.mpr (Or.inl hs))
        have hqbv : qb ⬝ᵥ v = qb ⬝ᵥ orthoAgainst acc v :=
          (dot_orthoAgainst_of_orth hqbacc v).symm
        rw [hqbv, dotProduct_comm]
        exact hcross _ (List.mem_append.mpr (Or.inr (List.mem_singleton.mpr rfl)))

/-- The retained pivot basis is pairwise orthogonal. -/
lemma gso_pairwise {n : ℕ} (th : ℚ) (cols : List (V n)) :
    (gso th cols).reduceOption.Pairwise (fun a b => a ⬝ᵥ b = 0) := by
  have h := (gsoAux_invariant th cols [] List.Pairwise.nil (by simp)).1
  simpa [gso] using h

/-- Every retained pivot exceeds the threshold. -/
lemma gso_pivot_gt {n : ℕ} (th : ℚ) (cols : List (V n)) :
    ∀ oq ∈ gso th cols, ∀ q, oq = some q → th < q ⬝ᵥ q :=
  (gsoAux_invariant th cols [] List.Pairwise.nil (by simp)).2.1

/-- A retained column has dot product with its pivot equal to the pivot's
squared norm, and lies in the span of the retained pivot basis. -/
lemma gso_col_facts {n : ℕ} (th : ℚ) (cols : List (V n)) :
    ∀ pr ∈ cols.zip (gso th cols), ∀ q, pr.2 = some q →
      q ⬝ᵥ pr.1 = q ⬝ᵥ q ∧
        pr.1 ∈ Submodule.span ℚ {x | x ∈ (gso th cols).reduceOption} := by
  have h := (gsoAux_invariant th cols [] List.Pairwise.nil (by simp)).2.2.1
  simpa [gso] using h

/-- Every later retained pivot is orthogonal to every earlier retained
column. -/
lemma gso_later_orth {n : ℕ} (th : ℚ) (cols : List (V n)) :
    (cols.zip (gso th cols)).Pairwise
      (fun a b => ∀ qa qb, a.2 = some qa → b.2 = some qb → qb ⬝ᵥ a.1 = 0) :=
  (gsoAux_invariant th cols [] List.Pairwise.nil (by simp)).2.2.2

/-- Back substitution produces one coefficient per processed pair. -/
lemma backsubAux_fst_length {n : ℕ} (y : V n)
    (zl : List (V n × Option (V n))) :
    (backsubAux y zl).1.length = zl.length := by
  induction zl with
  | nil => rfl
  | cons pr rest ih =>
    obtain ⟨v, oq⟩ := pr
    cases oq <;> simp [backsubAux, ih]

/-- The fitted part of back substitution is the combination of the processed
columns with the produced coefficients. -/
lemma backsubAux_snd_eq_combo {n : ℕ} (y : V n)
    (zl : List (V n × Option (V n))) :
    (backsubAux y zl).2 = combo (zl.map Prod.fst) (backsubAux y zl).1 := by
  induction zl with
  | nil => simp [backsubAux, combo]
  | cons pr rest ih =>
    obtain ⟨v, oq⟩ := pr
    cases oq with
    | none =>
      show (backsubAux y rest).2 =
        combo (v :: rest.map Prod.fst) (0 :: (backsubAux y rest).1)
      rw [combo, List.zipWith_cons_cons, List.sum_cons, zero_smul, zero_add]
      exact ih
    | some q =>
      show projCoeff q (y - (backsubAux y rest).2) • v + (backsubAux y rest).2 =
        combo (v :: rest.map Prod.fst)
          (projCoeff q (y - (backsubAux y rest).2) :: (backsubAux y rest).1)
      rw [combo, List.zipWith_cons_cons, List.sum_cons]
      exact congrArg _ ih

/-- The back-substitution residual is orthogonal to every retained pivot. -/
lemma backsubAux_orth {n : ℕ} (y : V n) (zl : List (V n × Option (V n)))
    (h1 : ∀ pr ∈ zl, ∀ q, pr.2 = some q → q ⬝ᵥ pr.1 = q ⬝ᵥ q)
    (h2 : zl.Pairwise
      (fun a b => ∀ qa qb, a.2 = some qa → b.2 = some qb → qb ⬝ᵥ a.1 = 0))
    (h3 : ∀ pr ∈ zl, ∀ q, pr.2 = some q → 0 < q ⬝ᵥ q) :
    ∀ pr ∈ zl, ∀ q, pr.2 = some q → q ⬝ᵥ (y - (backsubAux y zl).2) = 0 := by
  induction zl with
  | nil =>
    intro pr hpr
    cases hpr
  | cons hd rest ih =>
    obtain ⟨v, oq⟩ := hd
    rw [List.pairwise_cons] at h2
    intro pr hpr q hq
    rcases List.mem_cons.mp hpr with rfl | hmem
    · cases oq with
      | none => cases hq
      | some q0 =>
        cases hq
        show q ⬝ᵥ (y - (projCoeff q (y - (backsubAux y rest).2) • v +
          (backsubAux y rest).2)) = 0
        have hrw : y - (projCoeff q (y - (backsubAux y rest).2) • v +
            (backsubAux y rest).2) =
            (y - (backsubAux y rest).2) -
              projCoeff q (y - (backsubAux y rest).2) • v := by
          abel
        rw [hrw, dotProduct_sub, dotProduct_smul]
        have hqv : q ⬝ᵥ v = q ⬝ᵥ q :=
          h1 (v, some q) (List.mem_cons_self _ _) q rfl
        have hpos : 0 < q ⬝ᵥ q :=
          h3 (v, some q) (List.mem_cons_self _ _) q rfl
        rw [hqv, projCoeff, if_neg (ne_of_gt hpos), smul_eq_mul,
          div_mul_cancel₀ _ (ne_of_gt hpos), sub_self]
    · have htail := ih (fun pr hpr => h1 pr (List.mem_cons_of_mem _ hpr)) h2.2
        (fun pr hpr => h3 pr (List.mem_cons_of_mem _ hpr)) pr hmem q hq
      cases oq with
      | none => exact htail
      | some q0 =>
        show q ⬝ᵥ (y - (projCoeff q0 (y - (backsubAux y rest).2) • v +
          (backsubAux y rest).2)) = 0
        have hrw : y - (projCoeff q0 (y - (backsubAux y rest).2) • v +
            (backsubAux y rest).2) =
            (y - (backsubAux y rest).2) -
              projCoeff q0 (y - (backsubAux y rest).2) • v := by
          abel
        rw [hrw, dotProduct_sub, dotProduct_smul, htail]
        have hqbv : q ⬝ᵥ v = 0 := h2.1 pr hmem q0 q rfl hq
        rw [hqbv, smul_zero, sub_self]

/-- The fitted part of back substitution lies in the span to which every
retained column belongs. -/
lemma backsubAux_snd_mem_span {n : ℕ} (y : V n) {s : Set (V n)}
    (zl : List (V n × Option (V n)))
    (h4 : ∀ pr ∈ zl, ∀ q, pr.2 = some q → pr.1 ∈ Submodule.span ℚ s) :
    (backsubAux y zl).2 ∈ Submodule.span ℚ s := by
  induction zl with
  | nil => exact Submodule.zero_mem _
  | cons hd rest ih =>
    obtain ⟨v, oq⟩ := hd
    cases oq with
    | none => exact ih fun pr hpr => h4 pr (List.mem_cons_of_mem _ hpr)
    | some q0 =>
      show projCoeff q0 (y - (backsubAux y rest).2) • v +
        (backsubAux y rest).2 ∈ _
      refine Submodule.add_mem _ ?_ (ih fun pr hpr =>
        h4 pr (List.mem_cons_of_mem _ hpr))
      exact Submodule.smul_mem _ _
        (h4 (v, some q0) (List.mem_cons_self _ _) q0 rfl)

/-- Uniqueness of a vector in a span whose residual against `y` is orthogonal
to every generator. -/
lemma span_orth_unique {n : ℕ} (F : List (V n)) (y s t : V n)
    (hs : s ∈ Submodule.span ℚ {x | x ∈ F})
    (ht : t ∈ Submodule.span ℚ {x | x ∈ F})
    (hos : ∀ q ∈ F, q ⬝ᵥ (y - s) = 0)
    (hot : ∀ q ∈ F, q ⬝ᵥ (y - t) = 0) : s = t := by
  have hd : s - t ∈ Submodule.span ℚ {x | x ∈ F} := Submodule.sub_mem _ hs ht
  have hdq : ∀ q ∈ ({x | x ∈ F} : Set (V n)), q ⬝ᵥ (s - t) = 0 := by
    intro q hq
    have hst : s - t = (y - t) - (y - s) := by abel
    rw [hst, dotProduct_sub, hot q hq, hos q hq, sub_zero]
  have hzero : (s - t) ⬝ᵥ (s - t) = 0 := dot_eq_zero_of_mem_span hd hdq
  exact sub_eq_zero.mp (dotProduct_self_eq_zero.mp hzero)

/-- The orthogonalisation output has one entry per column. -/
lemma gso_length {n : ℕ} (th : ℚ) (cols : List (V n)) :
    (gso th cols).length = cols.length :=
  gsoAux_length th cols []

/-- The QR coefficient list has one entry per column. -/
lemma qrCoefList_length {n : ℕ} (cols : List (V n)) (y : V n) (tol : ℚ) :
    (qrCoefList cols y tol).length = cols.length := by
  rw [qrCoefList, backsubAux_fst_length, List.length_zip, gso_length,
    min_self]

/-- The fitted combination of the QR coefficients is the orthogonal projection
of `y` onto the span of the retained pivot basis. -/
lemma backsub_eq_projection {n : ℕ} (cols : List (V n)) (y : V n) (tol : ℚ) :
    combo cols (qrCoefList cols y tol) =
      y - orthoAgainst (gsRetained tol cols) y := by
  have hlen : cols.length ≤ (gso (gsThresh tol cols) cols).length := by
    rw [gso_length]
  have hA : combo cols (qrCoefList cols y tol) =
      (backsubAux y (cols.zip (gso (gsThresh tol cols) cols))).2 := by
    rw [qrCoefList, backsubAux_snd_eq_combo, List.map_fst_zip _ _ hlen]
  have h3 : ∀ pr ∈ cols.zip (gso (gsThresh tol cols) cols), ∀ q,
      pr.2 = some q → 0 < q ⬝ᵥ q := by
    intro pr hpr q hq
    have hmem : pr.2 ∈ gso (gsThresh tol cols) cols := by
      obtain ⟨v, oq⟩ := pr
      exact (List.of_mem_zip hpr).2
    exact lt_of_le_of_lt (gsThresh_nonneg tol cols)
      (gso_pivot_gt _ cols pr.2 hmem q hq)
  have horth : ∀ q ∈ gsRetained tol cols,
      q ⬝ᵥ (y - (backsubAux y
        (cols.zip (gso (gsThresh tol cols) cols))).2) = 0 := by
    intro q hqF
    obtain ⟨i, hi, hq⟩ := List.mem_iff_getElem.mp
      (List.reduceOption_mem_iff.mp hqF)
    have hic : i < cols.length := by
      rw [← gso_length (gsThresh tol cols) cols]
      exact hi
    have hiz : i < (cols.zip (gso (gsThresh tol cols) cols)).length := by
      rw [List.length_zip, gso_length, min_self]
      exact hic
    have hpr : (cols[i], (gso (gsThresh tol cols) cols)[i]) ∈
        cols.zip (gso (gsThresh tol cols) cols) := by
      rw [← List.getElem_zip (h := hiz)]
      exact List.getElem_mem hiz
    exact backsubAux_orth y _
      (fun pr hpr q' hq' => (gso_col_facts _ cols pr hpr q' hq').1)
      (gso_later_orth _ cols) h3 _ hpr q hq
  have hspan : (backsubAux y
      (cols.zip (gso (gsThresh tol cols) cols))).2 ∈
      Submodule.span ℚ {x | x ∈ gsRetained tol cols} :=
    backsubAux_snd_mem_span y _
      (fun pr hpr q hq => (gso_col_facts _ cols pr hpr q hq).2)
  have hyhat : y - orthoAgainst (gsRetained tol cols) y =
      ((gsRetained tol cols).map fun q => projCoeff q y • q).sum := by
    rw [orthoAgainst, sub_sub_cancel]
  have hyspan : y - orthoAgainst (gsRetained tol cols) y ∈
      Submodule.span ℚ {x | x ∈ gsRetained tol cols} := by
    rw [hyhat]
    exact map_smul_sum_mem_span (fun a ha => ha) _
  have hyorth : ∀ q ∈ gsRetained tol cols,
      q ⬝ᵥ (y - (y - orthoAgainst (gsRetained tol cols) y)) = 0 := by
    intro q hq
    rw [sub_sub_cancel]
    exact dot_orthoAgainst (gso_pairwise _ cols) hq y
  rw [hA]
  exact span_orth_unique (gsRetained tol cols) y _ _ hspan hyspan horth hyorth

/-- C3: the residual sum of squares returned by `calc_rss_eigenqr` equals the
squared norm of `y` minus the fitted values of the coefficient vector returned
by `fit_linreg_eigenqr`, for every column list, response and tolerance. -/
theorem calc_rss_eigenqr_eq_residual_norm_sq {n : ℕ} (cols : List (V n))
    (y : V n) (tol : ℚ) :
    calc_rss_eigenqr cols y tol =
      (y - combo cols (fit_linreg_eigenqr cols y tol).1) ⬝ᵥ
        (y - combo cols (fit_linreg_eigenqr cols y tol).1) := by
  have h : combo cols (fit_linreg_eigenqr cols y tol).1 =
      y - orthoAgainst (gsRetained tol cols) y :=
    backsub_eq_projection cols y tol
  rw [h, sub_sub_cancel]
  rfl

/-- Dot product with a coefficient combination, as a sum over column
indices. -/
lemma dot_combo {n : ℕ} (w : V n) (cols : List (V n)) (bs : List ℚ)
    (h : bs.length = cols.length) :
    w ⬝ᵥ combo cols bs =
      ∑ j : Fin cols.length, bs.getD j.val 0 * (w ⬝ᵥ cols.get j) := by
  induction cols generalizing bs with
  | nil => simp [combo]
  | cons c cs ih =>
    cases bs with
    | nil => cases h
    | cons b bs' =>
      have h' : bs'.length = cs.length := by simpa using h
      rw [combo, List.zipWith_cons_cons, List.sum_cons, dotProduct_add,
        dotProduct_smul]
      simp only [List.length_cons]
      rw [Fin.sum_univ_succ]
      rw [show (List.zipWith (fun b v => b • v) bs' cs).sum = combo cs bs'
        from rfl, ih bs' h', smul_eq_mul]
      rfl

/-- The QR coefficients satisfy the normal equations when every column is
retained. -/
lemma qr_normal_equations {n : ℕ} (cols : List (V n)) (y : V n) (tol : ℚ)
    (hret : ∀ oq ∈ gso (gsThresh tol cols) cols, oq.isSome = true) :
    gram cols *ᵥ (fun j => (qrCoefList cols y tol).getD j.val 0) =
      xty cols y := by
  funext i
  have hlen : (gso (gsThresh tol cols) cols).length = cols.length :=
    gso_length _ _
  have hig : i.val < (gso (gsThresh tol cols) cols).length := by
    rw [hlen]
    exact i.isLt
  have hiz : i.val < (cols.zip (gso (gsThresh tol cols) cols)).length := by
    rw [List.length_zip, hlen, min_self]
    exact i.isLt
  obtain ⟨q, hq⟩ := Option.isSome_iff_exists.mp
    (hret _ (List.getElem_mem hig))
  have hpr : (cols[i.val], (gso (gsThresh tol cols) cols)[i.val]) ∈
      cols.zip (gso (gsThresh tol cols) cols) := by
    rw [← List.getElem_zip (h := hiz)]
    exact List.getElem_mem hiz
  have hfacts := gso_col_facts (gsThresh tol cols) cols _ hpr q hq
  have horthF : ∀ qq ∈ (gso (gsThresh tol cols) cols).reduceOption,
      qq ⬝ᵥ orthoAgainst (gsRetained tol cols) y = 0 := fun qq hqq =>
    dot_orthoAgainst (gso_pairwise _ _) hqq y
  have hz : cols[i.val] ⬝ᵥ orthoAgainst (gsRetained tol cols) y = 0 :=
    dot_eq_zero_of_mem_span hfacts.2 horthF
  have hget : cols.get i = cols[i.val] := rfl
  show (fun j => gram cols i j) ⬝ᵥ
      (fun j => (qrCoefList cols y tol).getD j.val 0) = cols.get i ⬝ᵥ y
  rw [dotProduct]
  have hsum : ∑ j, gram cols i j * (qrCoefList cols y tol).getD j.val 0 =
      ∑ j, (qrCoefList cols y tol).getD j.val 0 * (cols.get i ⬝ᵥ cols.get j) := by
    refine Finset.sum_congr rfl fun j _ => ?_
    rw [mul_comm]
    rfl
  rw [hsum, ← dot_combo (cols.get i) cols _ (qrCoefList_length cols y tol)]
  rw [backsub_eq_projection, dotProduct_sub, hget, hz, sub_zero]

/-- The Cholesky coefficients satisfy the normal equations on a full-rank
Gram matrix. -/
lemma chol_normal_equations {n : ℕ} (cols : List (V n)) (y : V n)
    (hdet : (gram cols).det ≠ 0) :
    gram cols *ᵥ cholCoefFun cols y = xty cols y := by
  unfold cholCoefFun
  rw [Matrix.mulVec_smul, Matrix.mulVec_mulVec, Matrix.mul_adjugate,
    Matrix.smul_mulVec_assoc, Matrix.one_mulVec, smul_smul, one_div,
    inv_mul_cancel₀ hdet, one_smul]

/-- Multiplication by a Gram matrix with nonzero determinant is injective. -/
lemma gram_mulVec_injective {n : ℕ} (cols : List (V n))
    (hdet : (gram cols).det ≠ 0) {u w : Fin cols.length → ℚ}
    (h : gram cols *ᵥ u = gram cols *ᵥ w) : u = w := by
  have h2 : (gram cols).adjugate *ᵥ (gram cols *ᵥ u) =
      (gram cols).adjugate *ᵥ (gram cols *ᵥ w) := by
    rw [h]
  rw [Matrix.mulVec_mulVec, Matrix.mulVec_mulVec, Matrix.adjugate_mul,
    Matrix.smul_mulVec_assoc, Matrix.one_mulVec,
    Matrix.smul_mulVec_assoc, Matrix.one_mulVec] at h2
  exact smul_right_injective _ hdet h2

/-- C1: on a full-column-rank design (nonzero Gram determinant, every column
retained by the QR tolerance test), the Cholesky-based fit and the QR-based
fit return the same coefficients and the same residual sum of squares. -/
theorem fit_linreg_chol_eq_qr {n : ℕ} (cols : List (V n)) (y : V n) (tol : ℚ)
    (hdet : (gram cols).det ≠ 0)
    (hret : ∀ oq ∈ gso (gsThresh tol cols) cols, oq.isSome = true) :
    fit_linreg_eigenchol cols y = fit_linreg_eigenqr cols y tol := by
  have hfun : cholCoefFun cols y =
      fun j : Fin cols.length => (qrCoefList cols y tol).getD j.val 0 := by
    refine gram_mulVec_injective cols hdet ?_
    rw [chol_normal_equations cols y hdet, qr_normal_equations cols y tol hret]
  have hmap : ∀ (l : List ℚ), l.length = cols.length →
      (List.finRange cols.length).map (fun j : Fin cols.length =>
        l.getD j.val 0) = l := by
    intro l hl
    apply List.ext_getElem
    · rw [List.length_map, List.length_finRange, hl]
    · intro j h1 h2
      rw [List.getElem_map]
      have hj : j < (List.finRange cols.length).length := by
        rw [List.length_finRange, ← hl]
        exact h2
      have hget : (List.finRange cols.length)[j] =
          (List.finRange cols.length).get ⟨j, hj⟩ := rfl
      rw [hget, List.get_finRange, List.getD_eq_getElem _ _ h2]
  have hlist : (List.finRange cols.length).map (cholCoefFun cols y) =
      qrCoefList cols y tol := by
    rw [hfun, hmap _ (qrCoefList_length cols y tol)]
  show ((List.finRange cols.length).map (cholCoefFun cols y),
      rssOf cols ((List.finRange cols.length).map (cholCoefFun cols y)) y) =
    (qrCoefList cols y tol, rssOf cols (qrCoefList cols y tol) y)
  rw [hlist]

/-- Witness for C1 at a concrete full-rank input: one column of ones over one
individual, response `2`, tolerance `0`. -/
theorem fit_linreg_chol_eq_qr_witness :
    (gram [(fun _ => 1 : V 1)]).det ≠ 0 ∧
      (∀ oq ∈ gso (gsThresh 0 [(fun _ => 1 : V 1)]) [(fun _ => 1 : V 1)],
        oq.isSome = true) ∧
      fit_linreg_eigenchol [(fun _ => 1 : V 1)] (fun _ => 2) =
        fit_linreg_eigenqr [(fun _ => 1 : V 1)] (fun _ => 2) 0 := by
  have hdet : (gram [(fun _ => 1 : V 1)]).det ≠ 0 := by
    have hs : Subsingleton (Fin ([(fun _ => 1 : V 1)] : List (V 1)).length) :=
      ⟨by
        intro a b
        apply Fin.ext
        have ha := a.isLt
        have hb := b.isLt
        simp only [List.length_cons, List.length_nil] at ha hb
        omega⟩
    have h1 := @Matrix.det_eq_elem_of_subsingleton _ _ _ _ _ hs
      (gram [(fun _ => 1 : V 1)]) ⟨0, by norm_num⟩
    rw [h1]
    norm_num [gram, dotProduct, List.get]
  have hret : ∀ oq ∈ gso (gsThresh 0 [(fun _ => 1 : V 1)])
      [(fun _ => 1 : V 1)], oq.isSome = true := by
    norm_num [gso, gsoAux, gsThresh, maxSqNorm, orthoAgainst, dotProduct]
  exact ⟨hdet, hret, fit_linreg_chol_eq_qr _ _ _ hdet hret⟩

/-- The fuel-indexed shuffle is a permutation of its input whenever the fuel
covers the length. -/
lemma shuffleAux_perm {α : Type} [DecidableEq α] (rand : ℕ → ℕ) :
    ∀ (fuel t : ℕ) (l : List α), l.length ≤ fuel →
      (shuffleAux rand fuel t l).Perm l := by
  intro fuel
  induction fuel with
  | zero =>
    intro t l hl
    have h0 : l = [] := List.eq_nil_of_length_eq_zero (Nat.le_zero.mp hl)
    subst h0
    simp [shuffleAux]
  | succ fuel ih =>
    intro t l hl
    cases l with
    | nil => simp [shuffleAux]
    | cons a as =>
      show ((a :: as).getD (rand t % (a :: as).length) a ::
        shuffleAux rand fuel (t + 1)
          ((a :: as).erase
            ((a :: as).getD (rand t % (a :: as).length) a))).Perm (a :: as)
      have hv : (a :: as).getD (rand t % (a :: as).length) a ∈ a :: as := by
        have hlt : rand t % (a :: as).length < (a :: as).length :=
          Nat.mod_lt _ (by simp)
        rw [List.getD_eq_getElem _ _ hlt]
        exact List.getElem_mem hlt
      have hlen : ((a :: as).erase
          ((a :: as).getD (rand t % (a :: as).length) a)).length ≤ fuel := by
        have h1 := List.length_erase_add_one hv
        omega
      exact ((ih (t + 1) _ hlen).cons _).trans (List.perm_cons_erase hv).symm

/-- A shuffle is a permutation of its input. -/
lemma shuffleList_perm {α : Type} [DecidableEq α] (rand : ℕ → ℕ) (t : ℕ)
    (l : List α) : (shuffleList rand t l).Perm l :=
  shuffleAux_perm rand l.length t l (le_refl _)

/-- The positions of a stratum are distinct. -/
lemma stratumPositions_nodup (strata : List ℕ) (s : ℕ) :
    (stratumPositions strata s).Nodup :=
  (List.nodup_range _).filter _

/-- A stratum position is a position, and carries the stratum label. -/
lemma stratumPositions_mem (strata : List ℕ) (s i : ℕ)
    (h : i ∈ stratumPositions strata s) :
    i < strata.length ∧ strata.getD i 0 = s := by
  rw [stratumPositions, List.mem_filter, List.mem_range] at h
  exact ⟨h.1, by simpa using h.2⟩

/-- Core invariant of the stratified shuffle: restricted to the positions of
any stratum, the shuffled values are a permutation of the original values. -/
lemma stratifiedShuffle_stratum_perm {α : Type} [DecidableEq α]
    (rand : ℕ → ℕ) (x : List α) (d : α) (strata : List ℕ)
    (hlen : strata.length = x.length) (s : ℕ) :
    ((stratumPositions strata s).map fun i =>
        (stratifiedShuffle rand x d strata).getD i d).Perm
      ((stratumPositions strata s).map fun i => x.getD i d) := by
  have hshuffled : ((stratumPositions strata s).map fun i =>
      (stratifiedShuffle rand x d strata).getD i d) =
      shuffleList (fun k => rand (Nat.pair s k)) 0
        ((stratumPositions strata s).map fun j => x.getD j d) := by
    have hslen : (shuffleList (fun k => rand (Nat.pair s k)) 0
        ((stratumPositions strata s).map fun j => x.getD j d)).length =
        (stratumPositions strata s).length := by
      rw [(shuffleList_perm _ _ _).length_eq, List.length_map]
    apply List.ext_getElem
    · rw [List.length_map, hslen]
    · intro k h1 h2
      rw [List.getElem_map]
      have hk : k < (stratumPositions strata s).length := by
        rw [List.length_map] at h1
        exact h1
      have hmem : (stratumPositions strata s)[k] ∈ stratumPositions strata s :=
        List.getElem_mem hk
      obtain ⟨hilt, his⟩ := stratumPositions_mem strata s _ hmem
      have hix : (stratumPositions strata s)[k] < x.length := by
        rw [← hlen]
        exact hilt
      have hres : (stratifiedShuffle rand x d strata).getD
          (stratumPositions strata s)[k] d =
          (shuffleList (fun k => rand (Nat.pair s k)) 0
            ((stratumPositions strata s).map fun j => x.getD j d)).getD
            ((stratumPositions strata s).indexOf
              (stratumPositions strata s)[k]) d := by
        have hrl : (stratumPositions strata s)[k] <
            (stratifiedShuffle rand x d strata).length := by
          simp only [stratifiedShuffle, List.length_map, List.length_range]
          exact hix
        rw [List.getD_eq_getElem _ _ hrl]
        simp only [stratifiedShuffle, List.getElem_map, List.getElem_range]
        rw [his]
      rw [hres, List.indexOf_getElem (stratumPositions_nodup strata s) k hk]
      rw [List.getD_eq_getElem _ _ (by rw [hslen]; exact hk)]
  rw [hshuffled]
  exact shuffleList_perm _ _ _

/-- C4: for every column produced by the stratified permutation functions
(numeric and integer) and every stratum label, the multiset of permuted values
at the positions of that stratum equals the multiset of original values at
those positions — entries never cross stratum boundaries. -/
theorem stratified_permutation_preserves_strata :
    (∀ (rand : ℕ → ℕ) (n_perm : ℕ) (x : List ℚ) (strata : List ℕ)
      (n_strata : ℕ) (col : List ℚ), strata.length = x.length →
      col ∈ permute_nvector_stratified rand n_perm x strata n_strata →
      ∀ s : ℕ, ((stratumPositions strata s).map fun i => col.getD i 0).Perm
        ((stratumPositions strata s).map fun i => x.getD i 0)) ∧
    (∀ (rand : ℕ → ℕ) (n_perm : ℕ) (x : List ℤ) (strata : List ℕ)
      (n_strata : ℕ) (col : List ℤ), strata.length = x.length →
      col ∈ permute_ivector_stratified rand n_perm x strata n_strata →
      ∀ s : ℕ, ((stratumPositions strata s).map fun i => col.getD i 0).Perm
        ((stratumPositions strata s).map fun i => x.getD i 0)) := by
  constructor
  · intro rand n_perm x strata n_strata col hlen hcol s
    rw [permute_nvector_stratified] at hcol
    obtain ⟨j, _, rfl⟩ := List.mem_map.mp hcol
    exact stratifiedShuffle_stratum_perm _ x 0 strata hlen s
  · intro rand n_perm x strata n_strata col hlen hcol s
    rw [permute_ivector_stratified] at hcol
    obtain ⟨j, _, rfl⟩ := List.mem_map.mp hcol
    exact stratifiedShuffle_stratum_perm _ x 0 strata hlen s

/-- Witness for C4 at a concrete draw: two individuals in one stratum, a
random stream that flips them, for both the numeric and the integer
overload. -/
theorem stratified_permutation_witness :
    ([0, 0] : List ℕ).length = ([1, 2] : List ℚ).length ∧
      [(2 : ℚ), 1] ∈ permute_nvector_stratified (fun _ => 1) 1 [1, 2] [0, 0] 2 ∧
      ((stratumPositions [0, 0] 0).map fun i =>
          ([(2 : ℚ), 1]).getD i 0).Perm
        ((stratumPositions [0, 0] 0).map fun i => ([(1 : ℚ), 2]).getD i 0) ∧
      ([0, 0] : List ℕ).length = ([1, 2] : List ℤ).length ∧
      [(2 : ℤ), 1] ∈ permute_ivector_stratified (fun _ => 1) 1 [1, 2] [0, 0] 2 ∧
      ((stratumPositions [0, 0] 0).map fun i =>
          ([(2 : ℤ), 1]).getD i 0).Perm
        ((stratumPositions [0, 0] 0).map fun i => ([(1 : ℤ), 2]).getD i 0) := by
  refine ⟨by decide, by decide, ?_, by decide, by decide, ?_⟩
  · exact stratified_permutation_preserves_strata.1 (fun _ => 1) 1 [1, 2]
      [0, 0] 2 [2, 1] (by decide) (by decide) 0
  · exact stratified_permutation_preserves_strata.2 (fun _ => 1) 1 [1, 2]
      [0, 0] 2 [2, 1] (by decide) (by decide) 0

/-- With no design columns the fitted values are identically zero. -/
lemma glsFitted_nil (w y : List ℚ) :
    glsFitted w [] y = (List.range y.length).map fun _ => (0 : ℚ) := by
  rw [glsFitted]
  refine List.map_congr_left fun i _ => ?_
  have hemp : IsEmpty (Fin (([] : List (List ℚ))).length) := by
    refine ⟨fun a => ?_⟩
    have ha := a.isLt
    simp at ha
  haveI := hemp
  rw [Finset.univ_eq_empty, Finset.sum_empty]

/-- Counterexample to C5 as stated: at the boundary `hsq = 1` with the zero
eigenvalue `Kva = [0]`, the variance of the rotated coordinate is `0`, so the
log-likelihood evaluation divides by zero — its well-definedness guard
fails. -/
theorem Rcpp_calcLL_boundary_counterexample :
    lmmVariances 1 [0] = [0] ∧
      calcLL_wellDefined 1 [0] [1] [[1]] false = false := by
  constructor
  · norm_num [lmmVariances]
  · norm_num [calcLL_wellDefined, lmmVariances]

/-- C5 (amended): the log-likelihood evaluation is free of division by zero
and of logarithms of nonpositive arguments at both boundary heritabilities,
provided every eigenvalue is positive, the eigenvalue vector is nonempty, the
weighted residual sums of squares are positive, and — under REML — the
weighted Gram determinants are positive; with a zero eigenvalue the `hsq = 1`
boundary genuinely divides by zero. -/
theorem calcLL_wellDefined_at_boundaries (Kva y : List ℚ)
    (X : List (List ℚ)) (reml : Bool) (hne : Kva ≠ [])
    (hpos : ∀ l ∈ Kva, 0 < l)
    (h0 : 0 < weightedRSS (lmmWeights 0 Kva) X y)
    (h1 : 0 < weightedRSS (lmmWeights 1 Kva) X y)
    (hd0 : reml = true → 0 < (gramW (lmmWeights 0 Kva) X).det)
    (hd1 : reml = true → 0 < (gramW (lmmWeights 1 Kva) X).det) :
    calcLL_wellDefined 0 Kva y X reml = true ∧
      calcLL_wellDefined 1 Kva y X reml = true := by
  have hlen : 0 < Kva.length := List.length_pos.mpr hne
  constructor
  · rw [calcLL_wellDefined]
    simp only [Bool.and_eq_true, List.all_eq_true, decide_eq_true_eq,
      Bool.or_eq_true, Bool.not_eq_true']
    refine ⟨⟨⟨?_, hlen⟩, h0⟩, ?_⟩
    · intro s hs
      rw [lmmVariances] at hs
      obtain ⟨l, _, rfl⟩ := List.mem_map.mp hs
      norm_num
    · cases reml with
      | false => exact Or.inl rfl
      | true => exact Or.inr (hd0 rfl)
  · rw [calcLL_wellDefined]
    simp only [Bool.and_eq_true, List.all_eq_true, decide_eq_true_eq,
      Bool.or_eq_true, Bool.not_eq_true']
    refine ⟨⟨⟨?_, hlen⟩, h1⟩, ?_⟩
    · intro s hs
      rw [lmmVariances] at hs
      obtain ⟨l, hl, rfl⟩ := List.mem_map.mp hs
      have := hpos l hl
      linarith
    · cases reml with
      | false => exact Or.inl rfl
      | true => exact Or.inr (hd1 rfl)

/-- Witness for the amended C5 at a concrete input: one positive eigenvalue,
one observation, no covariate columns, ML mode. -/
theorem calcLL_wellDefined_at_boundaries_witness :
    (([(1 : ℚ)] : List ℚ) ≠ [] ∧ (∀ l ∈ ([(1 : ℚ)] : List ℚ), 0 < l) ∧
      0 < weightedRSS (lmmWeights 0 [1]) [] [1] ∧
      0 < weightedRSS (lmmWeights 1 [1]) [] [1]) ∧
      calcLL_wellDefined 0 [1] [1] [] false = true ∧
      calcLL_wellDefined 1 [1] [1] [] false = true := by
  have h0 : 0 < weightedRSS (lmmWeights 0 [1]) [] [(1 : ℚ)] := by
    rw [weightedRSS, glsFitted_nil]
    norm_num [lmmWeights, lmmVariances]
  have h1 : 0 < weightedRSS (lmmWeights 1 [1]) [] [(1 : ℚ)] := by
    rw [weightedRSS, glsFitted_nil]
    norm_num [lmmWeights, lmmVariances]
  refine ⟨⟨by simp, by norm_num, h0, h1⟩, ?_⟩
  exact calcLL_wellDefined_at_boundaries [1] [1] [] false (by simp)
    (by norm_num) h0 h1 (by simp) (by simp)

/-- The selected candidate has a log likelihood at least as large as the
initial candidate and every listed candidate. -/
lemma pickBest_spec (c : ℚ × ℚ) (l : List (ℚ × ℚ)) :
    c.2 ≤ (pickBest c l).2 ∧ ∀ b ∈ l, b.2 ≤ (pickBest c l).2 := by
  induction l generalizing c with
  | nil =>
    refine ⟨le_refl _, ?_⟩
    intro b hb
    cases hb
  | cons b l ih =>
    have hstep : pickBest c (b :: l) = pickBest (if c.2 < b.2 then b else c) l :=
      rfl
    rw [hstep]
    obtain ⟨ih1, ih2⟩ := ih (if c.2 < b.2 then b else c)
    constructor
    · refine le_trans ?_ ih1
      by_cases h : c.2 < b.2
      · rw [if_pos h]
        exact le_of_lt h
      · rw [if_neg h]
    · intro b' hb'
      rcases List.mem_cons.mp hb' with rfl | hmem
      · refine le_trans ?_ ih1
        by_cases h : c.2 < b'.2
        · rw [if_pos h]
        · rw [if_neg h]
          exact le_of_not_lt h
      · exact ih2 b' hmem

/-- C6: whenever `Rcpp_fitLMM` is called with `check_boundary` set and returns
a fit, the returned log likelihood is the maximum over the interior search
optimum and both boundary candidates: it dominates the boundary evaluations
at `hsq = 0` and `hsq = 1`, and it dominates the evaluation at whichever
interior optimum the bounded search produced. -/
theorem fitLMM_boundary_dominates (L : ℚ → ℚ) (Kva y : List ℚ)
    (X : List (List ℚ)) (reml : Bool) (logdetXpX tol : ℚ) (r : LMMFit)
    (h : Rcpp_fitLMM L Kva y X reml true logdetXpX tol = .ok r) :
    Rcpp_calcLL L 0 Kva y X reml logdetXpX ≤ r.ll ∧
      Rcpp_calcLL L 1 Kva y X reml logdetXpX ≤ r.ll ∧
      ∀ hopt : ℚ,
        goldenSearch (fun hh => Rcpp_calcLL L hh Kva y X reml logdetXpX)
          0 1 tol 30 = some hopt →
        Rcpp_calcLL L hopt Kva y X reml logdetXpX ≤ r.ll := by
  rw [Rcpp_fitLMM] at h
  split at h
  case isFalse => cases h
  case isTrue hdims =>
    split at h
    case h_1 hgs =>
      rw [if_pos rfl] at h
      cases h
      refine ⟨(pickBest_spec _ _).1, (pickBest_spec _ _).2
        (1, Rcpp_calcLL L 1 Kva y X reml logdetXpX) (by simp), ?_⟩
      intro hopt hsome
      rw [hgs] at hsome
      cases hsome
    case h_2 hopt0 hgs =>
      rw [if_pos rfl] at h
      cases h
      refine ⟨(pickBest_spec _ _).2
          (0, Rcpp_calcLL L 0 Kva y X reml logdetXpX) (by simp),
        (pickBest_spec _ _).2
          (1, Rcpp_calcLL L 1 Kva y X reml logdetXpX) (by simp), ?_⟩
      intro hopt hsome
      rw [hgs] at hsome
      cases hsome
      exact (pickBest_spec _ _).1

/-- The bounded search succeeds immediately when the bracket is already within
tolerance. -/
lemma goldenSearch_of_le (f : ℚ → ℚ) (lo hi tol : ℚ) (fuel : ℕ)
    (h : hi - lo ≤ tol) :
    goldenSearch f lo hi tol (fuel + 1) = some ((lo + hi) / 2) := by
  simp only [goldenSearch]
  rw [if_pos h]

/-- On a constant objective with a nonpositive tolerance the bounded search
exhausts its budget and reports non-convergence. -/
lemma goldenSearch_const_none (c lo hi tol : ℚ) :
    ∀ fuel, 0 < hi - lo → tol ≤ 0 →
      goldenSearch (fun _ => c) lo hi tol fuel = none := by
  intro fuel
  induction fuel generalizing lo hi with
  | zero =>
    intro h1 h2
    rfl
  | succ fuel ih =>
    intro h1 h2
    simp only [goldenSearch]
    rw [if_neg (by linarith), if_neg (by simp)]
    refine ih lo (lo + (hi - lo) * 5 / 8) ?_ h2
    linarith

/-- Witness for C6 at a concrete input: empty rotated data, ML mode,
tolerance `1`, where the search converges at once and the constant log
likelihood is `0`. -/
theorem fitLMM_boundary_dominates_witness :
    Rcpp_fitLMM id [] [] [] false true 0 1 = .ok ⟨1 / 2, 0⟩ ∧
      Rcpp_calcLL id 0 [] [] [] false 0 ≤ (LMMFit.mk (1 / 2) 0).ll ∧
      Rcpp_calcLL id 1 [] [] [] false 0 ≤ (LMMFit.mk (1 / 2) 0).ll ∧
      Rcpp_calcLL id ((0 + 1) / 2) [] [] [] false 0 ≤
        (LMMFit.mk (1 / 2) 0).ll := by
  have hgs : goldenSearch (fun h => Rcpp_calcLL id h [] [] [] false 0)
      0 1 1 30 = some ((0 + 1) / 2) :=
    goldenSearch_of_le _ 0 1 1 29 (by norm_num)
  have h : Rcpp_fitLMM id [] [] [] false true 0 1 = .ok ⟨1 / 2, 0⟩ := by
    rw [Rcpp_fitLMM, if_pos (by rfl), hgs]
    norm_num [pickBest, Rcpp_calcLL, lmmVariances, lmmWeights, weightedRSS,
      glsFitted]
  have hall := fitLMM_boundary_dominates id [] [] [] false 0 1 ⟨1 / 2, 0⟩ h
  exact ⟨h, hall.1, hall.2.1, hall.2.2 ((0 + 1) / 2) hgs⟩

/-- C7: `Rcpp_fitLMM` fails with a dimension-mismatch error whenever the
eigenvalue count disagrees with the row count of `y` or of a column of `X`;
it fails with a non-convergence error (rather than returning an arbitrary
interior point) whenever the bounded search does not produce an optimum and
`check_boundary` is not set; and `Rcpp_fitLMM_mat` fails with a
dimension-mismatch error under the same length guard against the columns
of `Y`. -/
theorem fitLMM_failure_semantics :
    (∀ (L : ℚ → ℚ) (Kva y : List ℚ) (X : List (List ℚ)) (reml cb : Bool)
      (ld tol : ℚ), lmmDimsOK Kva y X = false →
      Rcpp_fitLMM L Kva y X reml cb ld tol = .error .dimMismatch) ∧
    (∀ (L : ℚ → ℚ) (Kva y : List ℚ) (X : List (List ℚ)) (reml : Bool)
      (ld tol : ℚ), lmmDimsOK Kva y X = true →
      goldenSearch (fun h => Rcpp_calcLL L h Kva y X reml ld) 0 1 tol 30 =
        none →
      Rcpp_fitLMM L Kva y X reml false ld tol = .error .nonConvergence) ∧
    (∀ (L : ℚ → ℚ) (Kva : List ℚ) (Y X : List (List ℚ)) (reml cb : Bool)
      (ld tol : ℚ), (Y.all fun y => lmmDimsOK Kva y X) = false →
      Rcpp_fitLMM_mat L Kva Y X reml cb ld tol = .error .dimMismatch) := by
  refine ⟨?_, ?_, ?_⟩
  · intro L Kva y X reml cb ld tol h
    rw [Rcpp_fitLMM, if_neg (by simp [h])]
  · intro L Kva y X reml ld tol hdim hgs
    rw [Rcpp_fitLMM, if_pos hdim, hgs]
    rfl
  · intro L Kva Y X reml cb ld tol h
    rw [Rcpp_fitLMM_mat, if_neg (by simp [h])]

/-- Witness for C7 at concrete inputs: a one-eigenvalue vector against an
empty response (dimension mismatch), empty data with a zero tolerance (search
non-convergence), and a phenotype matrix whose column mismatches the
eigenvalues (matrix-version dimension mismatch). -/
theorem fitLMM_failure_semantics_witness :
    (lmmDimsOK [1] [] [] = false ∧
      Rcpp_fitLMM id [1] [] [] false false 0 1 = .error .dimMismatch) ∧
      (lmmDimsOK [] [] [] = true ∧
        goldenSearch (fun h => Rcpp_calcLL id h [] [] [] false 0) 0 1 0 30 =
          none ∧
        Rcpp_fitLMM id [] [] [] false false 0 0 = .error .nonConvergence) ∧
      ((([[]] : List (List ℚ)).all fun y => lmmDimsOK [1] y []) = false ∧
        Rcpp_fitLMM_mat id [1] [[]] [] false false 0 1 =
          .error .dimMismatch) := by
  have hf : (fun h => Rcpp_calcLL id h [] [] [] false 0) = fun _ => (0 : ℚ) := by
    funext h
    norm_num [Rcpp_calcLL, lmmVariances, lmmWeights, weightedRSS, glsFitted]
  have hgs : goldenSearch (fun h => Rcpp_calcLL id h [] [] [] false 0)
      0 1 0 30 = none := by
    rw [hf]
    exact goldenSearch_const_none 0 0 1 0 30 (by norm_num) (le_refl 0)
  refine ⟨⟨by decide, ?_⟩, ⟨by decide, hgs, ?_⟩, ⟨by decide, ?_⟩⟩
  · exact fitLMM_failure_semantics.1 id [1] [] [] false false 0 1 (by decide)
  · exact fitLMM_failure_semantics.2.1 id [] [] [] false 0 0 (by decide) hgs
  · exact fitLMM_failure_semantics.2.2 id [1] [[]] [] false false 0 1
      (by decide)
